import Mathlib

/-!
Verification of the tellme content-selection core.

Shallow embedding of the repository's Rust code:

* `src/src-tauri/src/content.rs` / `src/src/content.rs` — the `Topic`
  category registry and the `ContentUnit` lifecycle (`new`,
  `is_suitable_length`, `clean_content`).  Both files define the same
  lifecycle logic; the `Topic` enumeration embedded here is the one of the
  `src-tauri` binary, whose `database.rs` holds the diversity-weighted
  selector that the selection claims cite.
* `src/src-tauri/src/database.rs` — the preference aggregator
  (`get_topic_preferences`), the diversity-weighted selector
  (`select_topic_with_diversity`, `weighted_random_selection`),
  `get_recent_topics`, `row_to_content_unit` and
  `get_weighted_random_content`.

Modelling conventions:

* Rust `String` text is modelled as `List Char` (a Lean `String` is exactly
  a packed list of characters); `f64` scores are modelled as `ℚ`, with each
  decimal literal of the source read as the decimal rational it denotes.
* Randomness is passed explicitly: the selector takes the drawn point
  `r : ℚ` (the source draws `rng.gen::<f64>() * total_weight`, a uniform
  value in `[0, total_weight)`) and fallback / row indices as `Nat` inputs.
* SQLite reads are modelled either as pure reads of an explicit `Db` state
  (content rows plus the interaction history, most recent first), or — where
  a claim is about error propagation — as row lists of `Except DbErr`
  values, mirroring which reads the source can observe failing.
-/

namespace Tellme

/-- Topic enumeration from `src/src-tauri/src/content.rs` (the category
registry of the selection core): one unit variant per historical period. -/
inductive Topic
  | Prehistoric
  | AncientEgypt
  | AncientGreece
  | AncientRome
  | AncientChina
  | Byzantine
  | Medieval
  | Viking
  | Islamic
  | Mongol
  | Renaissance
  | AgeOfExploration
  | Colonial
  | Enlightenment
  | Industrial
  | NineteenthCentury
  | WorldWarOne
  | InterwarPeriod
  | WorldWarTwo
  | ColdWar
  | Contemporary
deriving DecidableEq, Repr

/-- Model of `Topic::all()` from `src/src-tauri/src/content.rs`: the fixed list of
every registered topic. -/
def Topic.all : List Topic :=
  [ .Prehistoric, .AncientEgypt, .AncientGreece, .AncientRome, .AncientChina,
    .Byzantine, .Medieval, .Viking, .Islamic, .Mongol,
    .Renaissance, .AgeOfExploration, .Colonial, .Enlightenment,
    .Industrial, .NineteenthCentury, .WorldWarOne, .InterwarPeriod,
    .WorldWarTwo, .ColdWar, .Contemporary ]

/-- Every topic is registered: `Topic.all` enumerates the whole enum. -/
theorem Topic.mem_all (t : Topic) : t ∈ Topic.all := by
  cases t <;> simp [Topic.all]

/-- Variant name of a topic, as serde serializes a fieldless enum variant. -/
def topicName : Topic → String
  | .Prehistoric => "Prehistoric"
  | .AncientEgypt => "AncientEgypt"
  | .AncientGreece => "AncientGreece"
  | .AncientRome => "AncientRome"
  | .AncientChina => "AncientChina"
  | .Byzantine => "Byzantine"
  | .Medieval => "Medieval"
  | .Viking => "Viking"
  | .Islamic => "Islamic"
  | .Mongol => "Mongol"
  | .Renaissance => "Renaissance"
  | .AgeOfExploration => "AgeOfExploration"
  | .Colonial => "Colonial"
  | .Enlightenment => "Enlightenment"
  | .Industrial => "Industrial"
  | .NineteenthCentury => "NineteenthCentury"
  | .WorldWarOne => "WorldWarOne"
  | .InterwarPeriod => "InterwarPeriod"
  | .WorldWarTwo => "WorldWarTwo"
  | .ColdWar => "ColdWar"
  | .Contemporary => "Contemporary"

/-- JSON encoding of a topic tag as stored in the `topic` column:
`serde_json::to_string` of a fieldless enum variant is the quoted
variant name. -/
def topicJson (t : Topic) : String :=
  "\"" ++ topicName t ++ "\""

/-- Decoding of a stored topic tag against the registry:
`serde_json::from_str::<Topic>` succeeds exactly on the JSON encoding of
one of the registered variants. -/
def decodeTopic (s : String) : Option Topic :=
  Topic.all.find? (fun t => topicJson t = s)

/-! ### Text model

Rust text is modelled as `List Char`.  `isWS` is Rust's
`char::is_whitespace`, the Unicode `White_Space` property. -/

/-- Unicode `White_Space` property, the class used by Rust's
`char::is_whitespace`, `str::trim` and `str::split_whitespace`. -/
def isWS (c : Char) : Bool :=
  let n := c.toNat
  (0x9 ≤ n && n ≤ 0xD) || n == 0x20 || n == 0x85 || n == 0xA0 ||
    n == 0x1680 || (0x2000 ≤ n && n ≤ 0x200A) || n == 0x2028 ||
    n == 0x2029 || n == 0x202F || n == 0x205F || n == 0x3000

/-- Decimal digit as matched by the citation regex `\[\d+\]`
(`clean_content`, `src/src/content.rs:459`).  The regex crate's `\d` is
the Unicode decimal-digit class; the ASCII digits modelled here are the
only ones the claims exercise. -/
def isDigitC (c : Char) : Bool :=
  '0' ≤ c && c ≤ '9'

/-- Scanner realizing `Regex::new(r"\[\d+\]").replace_all(text, "")` of
`clean_content`: left to right, each non-overlapping occurrence of a `[`,
one or more digits, `]` is deleted; scanning resumes after the deleted
match and the output is not rescanned.  `pend = some ds` means the scanner
has read a `[` followed by the digits `ds` (reversed) of a potential
citation marker. -/
def goStrip : Option (List Char) → List Char → List Char
  | none, [] => []
  | some ds, [] => '[' :: ds.reverse
  | none, c :: rest =>
      if c = '[' then goStrip (some []) rest
      else c :: goStrip none rest
  | some ds, c :: rest =>
      if isDigitC c then goStrip (some (c :: ds)) rest
      else if c = ']' ∧ ds ≠ [] then goStrip none rest
      else if c = '[' then ('[' :: ds.reverse) ++ goStrip (some []) rest
      else ('[' :: ds.reverse) ++ (c :: goStrip none rest)

/-- Citation-marker removal step of `clean_content`: strip every bracketed
numeric citation marker such as `[12]` from the text. -/
def stripCitations (s : List Char) : List Char :=
  goStrip none s

/-- Model of `str::split_inclusive('\n')`: cut the text after every newline, each
segment keeping its terminating newline; an empty text yields no
segments. -/
def splitInclusiveNL : List Char → List (List Char)
  | [] => []
  | c :: rest =>
      if c = '\n' then [c] :: splitInclusiveNL rest
      else
        match splitInclusiveNL rest with
        | [] => [[c]]
        | seg :: segs => (c :: seg) :: segs

/-- Line-terminator removal of `str::lines`: strip one trailing `\n`
(`strip_suffix('\n')`), and when one was stripped also one trailing
`\r`, so `\r\n` endings are removed whole but a `\r` not followed by a
newline stays. -/
def stripLineEnding (l : List Char) : List Char :=
  if l.getLast? = some '\n' then
    if l.dropLast.getLast? = some '\r' then l.dropLast.dropLast
    else l.dropLast
  else l

/-- Model of `str::lines`: split at newlines, line terminators not included. -/
def lines (s : List Char) : List (List Char) :=
  (splitInclusiveNL s).map stripLineEnding

/-- Removal of leading whitespace (`str::trim_start`). -/
def ltrim (l : List Char) : List Char :=
  l.dropWhile isWS

/-- Removal of trailing whitespace (`str::trim_end`). -/
def rtrim (l : List Char) : List Char :=
  (l.reverse.dropWhile isWS).reverse

/-- Model of `str::trim`: remove leading and trailing Unicode whitespace. -/
def trim (l : List Char) : List Char :=
  rtrim (ltrim l)

/-- Model of `Vec::join("\n\n")`: concatenate the lines with a blank-line
separator between consecutive lines. -/
def joinBlank : List (List Char) → List Char
  | [] => []
  | [l] => l
  | l :: ls => l ++ '\n' :: '\n' :: joinBlank ls

/-- Line-normalization step of `clean_content`
(`src/src/content.rs:463-468`): split into lines, trim each line, drop
the empty ones, rejoin with a blank-line separator. -/
def lineStage (s : List Char) : List Char :=
  joinBlank (((lines s).map trim).filter (fun l => decide (l ≠ [])))

/-- Whole body transform of `ContentUnit::clean_content`: strip the
citation markers, then normalize the lines. -/
def cleanText (s : List Char) : List Char :=
  lineStage (stripCitations s)

/-- Word splitter of `str::split_whitespace`: the accumulator holds the
(reversed) current word; whitespace closes it, remaining characters
extend it. -/
def wsSplitGo : List Char → List Char → List (List Char)
  | acc, [] => if acc = [] then [] else [acc.reverse]
  | acc, c :: rest =>
      if isWS c then
        if acc = [] then wsSplitGo [] rest
        else acc.reverse :: wsSplitGo [] rest
      else wsSplitGo (c :: acc) rest

/-- Model of `content.split_whitespace().count()`: the number of
whitespace-delimited tokens of a text. -/
def countWords (s : List Char) : Nat :=
  (wsSplitGo [] s).length

/-! ### Content lifecycle (`src/src/content.rs`, identical in
`src/src-tauri/src/content.rs`) -/

/-- The `ContentUnit` struct: one displayable piece of text and its metadata.
`chrono::DateTime<Utc>` timestamps are modelled as integers. -/
structure ContentUnit where
  id : Int
  topic : Topic
  title : List Char
  content : List Char
  source_url : List Char
  word_count : Nat
  created_at : Int
deriving DecidableEq, Repr

/-- Model of `ContentUnit::new`: compute `word_count` from the body, set a pending
id of `0` and the current time (`chrono::Utc::now()`, passed here as the
explicit parameter `now`) as creation timestamp. -/
def ContentUnit.new (topic : Topic) (title content source_url : List Char)
    (now : Int) : ContentUnit :=
  { id := 0
    topic := topic
    title := title
    content := content
    source_url := source_url
    word_count := countWords content
    created_at := now }

/-- Model of `ContentUnit::is_suitable_length`: suitable iff the word count lies
between 30 and 800 inclusive. -/
def ContentUnit.is_suitable_length (u : ContentUnit) : Bool :=
  30 ≤ u.word_count && u.word_count ≤ 800

/-- Model of `ContentUnit::clean_content`: replace the body by its cleaned form;
no other field is touched. -/
def ContentUnit.clean_content (u : ContentUnit) : ContentUnit :=
  { u with content := cleanText u.content }

/-! ### Interactions and the preference aggregator
(`src/src-tauri/src/database.rs`) -/

/-- Outcome tag of a `UserInteraction`: the `interaction_type` column
holds `"fully_read"` for `FullyRead` and `"skipped"` for `Skipped`, the
only two variants `record_interaction` ever writes. -/
inductive IKind
  | fullyRead
  | skipped
deriving DecidableEq, Repr

/-- Row of the join `user_interactions ui JOIN content c ON
ui.content_id = c.id`, the shape every aggregate of the selection core
reads: the topic of the interacted content together with the outcome. -/
structure JoinedInteraction where
  topic : Topic
  kind : IKind
deriving DecidableEq, Repr

/-- Count of `fully_read` interactions of a topic, as summed by the
`GROUP BY c.topic, ui.interaction_type` query of
`get_topic_preferences`. -/
def fullyReadCount (H : List JoinedInteraction) (t : Topic) : Nat :=
  (H.filter (fun i => i.topic = t ∧ i.kind = IKind.fullyRead)).length

/-- Count of `skipped` interactions of a topic. -/
def skippedCount (H : List JoinedInteraction) (t : Topic) : Nat :=
  (H.filter (fun i => i.topic = t ∧ i.kind = IKind.skipped)).length

/-- Model of `Database::get_topic_preferences`
(`src/src-tauri/src/database.rs:306-346`): per topic, the ratio
`fully_read / (fully_read + skipped)`; topics whose total is zero get no
entry.  The SQL `GROUP BY` aggregation and the `HashMap` accumulation
are collapsed into direct counting over the joined interaction history;
the resulting mapping is represented as an `Option`-valued function
(`none` = key absent). -/
def get_topic_preferences (H : List JoinedInteraction) :
    Topic → Option ℚ := fun t =>
  let fr := fullyReadCount H t
  let sk := skippedCount H t
  if 0 < fr + sk then some ((fr : ℚ) / ((fr : ℚ) + (sk : ℚ))) else none

/-! ### Diversity-weighted selector
(`src/src-tauri/src/database.rs:108-172`) -/

/-- Storage-layer error (`rusqlite::Error`, surfaced through
`anyhow::Result`); its payload is irrelevant to the claims. -/
inductive DbErr
  | storage
deriving DecidableEq, Repr

/-- Recency penalty factor of `select_topic_with_diversity`
(`database.rs:127-134`), keyed on the position of the topic in the
recent-topics list: `match i { 0 => 0.1, 1 => 0.3, 2 => 0.6, 3 => 0.8,
4 => 0.9, _ => 1.0 }`. -/
def recencyFactor : Nat → ℚ
  | 0 => 1/10
  | 1 => 3/10
  | 2 => 6/10
  | 3 => 8/10
  | 4 => 9/10
  | _ => 1

/-- Recency penalty loop of `select_topic_with_diversity`
(`database.rs:125-137`): for every position `i` of the recent list whose
entry equals the topic, multiply the running score by `recencyFactor i`. -/
def applyRecency (recents : List Topic) (t : Topic) (s : ℚ) : ℚ :=
  recents.enum.foldl
    (fun acc p => if p.2 = t then acc * recencyFactor p.1 else acc) s

/-- Score of one topic in `select_topic_with_diversity`
(`database.rs:114-147`): base preference score (default `0.3`), the
recency penalty, a `+0.2` exploration bonus when
`get_topic_interaction_count(topic).unwrap_or(0) < 3`, then the `0.05`
floor.  `icount` is the interaction-count read, which the source
defaults to `0` on error via `unwrap_or(0)`. -/
def topicScore (prefs : Topic → Option ℚ) (recents : List Topic)
    (icount : Topic → Except DbErr Int) (t : Topic) : ℚ :=
  let base := (prefs t).getD (3/10)
  let pen := applyRecency recents t base
  let cnt : Int := match icount t with
    | .ok n => n
    | .error _ => 0
  let boosted := if cnt < 3 then pen + 2/10 else pen
  max boosted (5/100)

/-- Score map built by `select_topic_with_diversity`: one entry per
registered topic (`for topic in Topic::all()`), represented as an
association list in registry order (the `HashMap` iteration order of the
source is implementation-defined; no claim depends on it). -/
def topicScores (prefs : Topic → Option ℚ) (recents : List Topic)
    (icount : Topic → Except DbErr Int) : List (Topic × ℚ) :=
  Topic.all.map (fun t => (t, topicScore prefs recents icount t))

/-- Total weight `topic_scores.values().sum()` of
`weighted_random_selection`. -/
def sumW (scores : List (Topic × ℚ)) : ℚ :=
  (scores.map Prod.snd).sum

/-- Subtraction loop of `weighted_random_selection`
(`database.rs:161-166`): subtract each weight from the drawn point until
the remainder is `≤ 0` and return that topic; `none` when the loop runs
off the end (the source's "shouldn't happen" fallback). -/
def weightedPick : List (Topic × ℚ) → ℚ → Option Topic
  | [], _ => none
  | (t, w) :: rest, r => if r - w ≤ 0 then some t else weightedPick rest (r - w)

/-- Model of `Database::weighted_random_selection` (`database.rs:154-172`): walk
the score list subtracting weights from the drawn point `r`; if the loop
finishes without returning, fall back to the topic at a random registry
index (`fb` models `rng.gen_range(0..topics.len())` before the
modulus). -/
def weighted_random_selection (scores : List (Topic × ℚ)) (r : ℚ)
    (fb : Nat) : Topic :=
  (weightedPick scores r).getD
    (Topic.all.getD (fb % Topic.all.length) Topic.Prehistoric)

/-! ### Storage reads of the selection core -/

/-- Model of `Database::get_recent_topics` (`database.rs:175-197`): iterate the
query rows (each row read can fail, modelled as `Except DbErr String`),
propagate a row error immediately via `?`, and keep a decoded topic only
when `serde_json::from_str::<Topic>` succeeds (`if let Ok(topic)`), a
malformed tag being skipped. -/
def get_recent_topics : List (Except DbErr String) → Except DbErr (List Topic)
  | [] => .ok []
  | (.error e) :: _ => .error e
  | (.ok s) :: rest =>
      match decodeTopic s with
      | some t => (get_recent_topics rest).map (fun ts => t :: ts)
      | none => get_recent_topics rest

/-- Raw `content` table row as read by `row_to_content_unit`; the topic
column is the stored JSON tag still to be decoded (the timestamp parse,
irrelevant to the claims, is modelled as already done). -/
structure RawRow where
  id : Int
  topicStr : String
  title : List Char
  content : List Char
  source_url : List Char
  word_count : Nat
  created_at : Int

/-- Model of `Database::row_to_content_unit` (`database.rs:249-276`): decode the
stored topic tag; a tag that does not decode against the registry makes
the row read fail with a storage-layer conversion error
(`rusqlite::Error::FromSqlConversionFailure`). -/
def row_to_content_unit (row : RawRow) : Except DbErr ContentUnit :=
  match decodeTopic row.topicStr with
  | none => .error .storage
  | some t =>
      .ok { id := row.id, topic := t, title := row.title,
            content := row.content, source_url := row.source_url,
            word_count := row.word_count, created_at := row.created_at }

/-! ### Database state and `get_weighted_random_content`
(`database.rs:92-106`, error-free storage) -/

/-- Pure view of the SQLite state the selection path reads: the stored
content rows and the joined interaction history, most recent first (the
order `ORDER BY ui.timestamp DESC` yields). -/
structure Db where
  content : List ContentUnit
  history : List JoinedInteraction

/-- Model of `get_recent_topics(5)` over a healthy store: topics of the five most
recent interactions, most recent first. -/
def recentTopics (db : Db) : List Topic :=
  (db.history.take 5).map JoinedInteraction.topic

/-- Preference mapping of the state. -/
def dbPreferences (db : Db) : Topic → Option ℚ :=
  get_topic_preferences db.history

/-- Model of `get_topic_interaction_count` over a healthy store: `COUNT(*)` of the
join restricted to the topic. -/
def dbInteractionCount (db : Db) (t : Topic) : Except DbErr Int :=
  .ok ((db.history.filter (fun i => i.topic = t)).length : Int)

/-- Model of `topic_weights.is_empty()`: the preference mapping has no entry for
any registered topic. -/
def prefsEmpty (db : Db) : Bool :=
  Topic.all.all (fun t => (dbPreferences db t).isNone)

/-- Model of `Database::get_random_content`: `ORDER BY RANDOM() LIMIT 1` over all
stored content, the uniform draw modelled by the index `k` reduced
modulo the row count; `none` exactly when nothing is stored. -/
def get_random_content (db : Db) (k : Nat) : Option ContentUnit :=
  db.content.get? (k % db.content.length)

/-- Stored content of one topic. -/
def contentForTopic (db : Db) (t : Topic) : List ContentUnit :=
  db.content.filter (fun u => u.topic = t)

/-- Model of `Database::get_random_content_by_topic`: uniform draw over the
stored content of the topic; `none` exactly when the topic has none. -/
def get_random_content_by_topic (db : Db) (t : Topic) (k : Nat) :
    Option ContentUnit :=
  (contentForTopic db t).get? (k % (contentForTopic db t).length)

/-- Model of `Database::select_topic_with_diversity` over a healthy store, the
drawn point `r` and fallback index `fb` passed explicitly. -/
def select_topic_with_diversity (db : Db) (r : ℚ) (fb : Nat) : Topic :=
  weighted_random_selection
    (topicScores (dbPreferences db) (recentTopics db) (dbInteractionCount db))
    r fb

/-- Model of `Database::get_weighted_random_content` (`database.rs:92-106`): with
an empty preference mapping return truly random content; otherwise pick
a topic with the diversity-weighted selector and draw among that topic's
stored content. -/
def get_weighted_random_content (db : Db) (r : ℚ) (fb k : Nat) :
    Option ContentUnit :=
  if prefsEmpty db then get_random_content db k
  else get_random_content_by_topic db (select_topic_with_diversity db r fb) k

/-! ### Helper lemmas -/

/-- Folding a conditional multiplication accumulates the product of the
selected factors. -/
theorem foldl_if_mul {α : Type} (q : α → Prop) [DecidablePred q]
    (f : α → ℚ) :
    ∀ (l : List α) (s : ℚ),
      l.foldl (fun acc x => if q x then acc * f x else acc) s
        = s * ((l.filter (fun x => decide (q x))).map f).prod := by
  intro l
  induction l with
  | nil => intro s; simp
  | cons x xs ih =>
      intro s
      rw [List.foldl_cons, List.filter_cons]
      by_cases hx : q x
      · rw [if_pos hx, ih, decide_eq_true hx, if_pos rfl, List.map_cons,
          List.prod_cons]
        ring
      · rw [if_neg hx, ih, decide_eq_false hx]
        simp

/-! ### Text lemmas for the cleanup transform -/

/-- Head of what `dropWhile` leaves never satisfies the predicate. -/
theorem dropWhile_head_false {α : Type} (p : α → Bool) :
    ∀ (l : List α) (c : α) (t : List α), l.dropWhile p = c :: t → p c = false := by
  intro l
  induction l with
  | nil => intro c t h; exact absurd h (by simp)
  | cons a l ih =>
      intro c t h
      by_cases ha : p a
      · rw [List.dropWhile_cons_of_pos ha] at h
        exact ih c t h
      · rw [List.dropWhile_cons_of_neg ha] at h
        cases h
        exact Bool.not_eq_true _ ▸ (by simpa using ha)

/-- Dropping twice drops once. -/
theorem dropWhile_dropWhile {α : Type} (p : α → Bool) (l : List α) :
    (l.dropWhile p).dropWhile p = l.dropWhile p := by
  cases h : l.dropWhile p with
  | nil => simp
  | cons c t =>
      have hc := dropWhile_head_false p l c t h
      rw [List.dropWhile_cons_of_neg (by simp [hc])]

/-- Value of `dropWhile` on an append, when the first part is not dropped
entirely. -/
theorem dropWhile_append_left {α : Type} (p : α → Bool) :
    ∀ (a b : List α), a.dropWhile p ≠ [] →
      (a ++ b).dropWhile p = a.dropWhile p ++ b := by
  intro a
  induction a with
  | nil => intro b h; exact absurd rfl h
  | cons x a ih =>
      intro b h
      by_cases hx : p x
      · rw [List.cons_append, List.dropWhile_cons_of_pos hx,
          List.dropWhile_cons_of_pos hx]
        rw [List.dropWhile_cons_of_pos hx] at h
        exact ih b h
      · rw [List.cons_append, List.dropWhile_cons_of_neg hx,
          List.dropWhile_cons_of_neg hx]
        rfl

/-- Value of `dropWhile` on an append, when the first part is dropped entirely. -/
theorem dropWhile_append_right {α : Type} (p : α → Bool) :
    ∀ (a b : List α), a.dropWhile p = [] →
      (a ++ b).dropWhile p = b.dropWhile p := by
  intro a
  induction a with
  | nil => intro b _; rfl
  | cons x a ih =>
      intro b h
      by_cases hx : p x
      · rw [List.dropWhile_cons_of_pos hx] at h
        rw [List.cons_append, List.dropWhile_cons_of_pos hx]
        exact ih b h
      · rw [List.dropWhile_cons_of_neg hx] at h
        exact absurd h (by simp)

/-- Trailing trim commutes with a non-whitespace head. -/
theorem rtrim_cons (c : Char) (l : List Char) (hc : isWS c = false) :
    rtrim (c :: l) = c :: rtrim l := by
  unfold rtrim
  cases h : l.reverse.dropWhile isWS with
  | nil =>
      rw [show (c :: l).reverse = l.reverse ++ [c] from by simp,
        dropWhile_append_right isWS l.reverse [c] h,
        List.dropWhile_cons_of_neg (by simp [hc])]
      simp
  | cons d t =>
      rw [show (c :: l).reverse = l.reverse ++ [c] from by simp,
        dropWhile_append_left isWS l.reverse [c] (by rw [h]; simp), h]
      simp

/-- Trailing trim is idempotent. -/
theorem rtrim_idem (l : List Char) : rtrim (rtrim l) = rtrim l := by
  unfold rtrim
  rw [List.reverse_reverse, dropWhile_dropWhile]

/-- A right-trimmed left-trimmed text needs no further left trim. -/
theorem ltrim_rtrim_ltrim (l : List Char) :
    ltrim (rtrim (ltrim l)) = rtrim (ltrim l) := by
  cases h : ltrim l with
  | nil => rfl
  | cons c t =>
      have hc := dropWhile_head_false isWS l c t h
      rw [rtrim_cons c t hc]
      unfold ltrim
      rw [List.dropWhile_cons_of_neg (by simp [hc])]

/-- The `trim` function is idempotent. -/
theorem trim_idem (l : List Char) : trim (trim l) = trim l := by
  unfold trim
  rw [ltrim_rtrim_ltrim, rtrim_idem]

/-- Dropping a prefix keeps only members of the original list. -/
theorem mem_of_mem_dropWhile {α : Type} (p : α → Bool) :
    ∀ (l : List α) (x : α), x ∈ l.dropWhile p → x ∈ l := by
  intro l
  induction l with
  | nil => intro x h; simp at h
  | cons a l ih =>
      intro x h
      by_cases ha : p a
      · rw [List.dropWhile_cons_of_pos ha] at h
        exact List.mem_cons_of_mem _ (ih x h)
      · rwa [List.dropWhile_cons_of_neg ha] at h

/-- Trimming keeps only members of the original text. -/
theorem mem_of_mem_trim (l : List Char) (x : Char) (h : x ∈ trim l) :
    x ∈ l := by
  unfold trim rtrim ltrim at h
  rw [List.mem_reverse] at h
  have h1 := mem_of_mem_dropWhile isWS _ x h
  rw [List.mem_reverse] at h1
  exact mem_of_mem_dropWhile isWS l x h1

/-- The last character of a trimmed text is not whitespace. -/
theorem trim_reverse_head (l : List Char) (c : Char) (t : List Char)
    (h : (trim l).reverse = c :: t) : isWS c = false := by
  unfold trim rtrim at h
  rw [List.reverse_reverse] at h
  exact dropWhile_head_false isWS _ c t h

/-- One-step unfolding of the inclusive newline split. -/
theorem splitInclusiveNL_cons (c : Char) (rest : List Char) :
    splitInclusiveNL (c :: rest)
      = if c = '\n' then [c] :: splitInclusiveNL rest
        else
          match splitInclusiveNL rest with
          | [] => [[c]]
          | seg :: segs => (c :: seg) :: segs := rfl

/-- Splitting a newline-free segment followed by a newline. -/
theorem splitInclusiveNL_append (a : List Char) (t : List Char)
    (ha : '\n' ∉ a) :
    splitInclusiveNL (a ++ '\n' :: t) = (a ++ ['\n']) :: splitInclusiveNL t := by
  induction a with
  | nil => simp [splitInclusiveNL_cons]
  | cons c a ih =>
      have hc : ¬ c = '\n' := fun hcc => ha (hcc ▸ List.mem_cons_self c a)
      have ha' : '\n' ∉ a := fun hx => ha (List.mem_cons_of_mem _ hx)
      rw [List.cons_append, splitInclusiveNL_cons, if_neg hc, ih ha']
      rfl

/-- Splitting a nonempty newline-free text. -/
theorem splitInclusiveNL_no_newline (a : List Char) (ha : '\n' ∉ a)
    (hne : a ≠ []) : splitInclusiveNL a = [a] := by
  induction a with
  | nil => exact absurd rfl hne
  | cons c a ih =>
      have hc : ¬ c = '\n' := fun hcc => ha (hcc ▸ List.mem_cons_self c a)
      have ha' : '\n' ∉ a := fun hx => ha (List.mem_cons_of_mem _ hx)
      rw [splitInclusiveNL_cons, if_neg hc]
      by_cases ha0 : a = []
      · subst ha0
        rfl
      · rw [ih ha' ha0]

/-- A text not ending in a newline keeps its line ending untouched. -/
theorem stripLineEnding_self (a : List Char)
    (h : a.getLast? ≠ some '\n') : stripLineEnding a = a := by
  unfold stripLineEnding
  rw [if_neg h]

/-- Appending a newline to a text not ending in a carriage return and
stripping the line ending recovers the text. -/
theorem stripLineEnding_concat (a : List Char)
    (h : a.getLast? ≠ some '\r') :
    stripLineEnding (a ++ ['\n']) = a := by
  unfold stripLineEnding
  rw [List.getLast?_concat, if_pos rfl, List.dropLast_concat, if_neg h]

/-- Characters of a stripped line ending come from the segment before
the newline. -/
theorem mem_stripLineEnding_concat (a : List Char) (x : Char)
    (h : x ∈ stripLineEnding (a ++ ['\n'])) : x ∈ a := by
  unfold stripLineEnding at h
  rw [List.getLast?_concat, if_pos rfl, List.dropLast_concat] at h
  by_cases hcr : a.getLast? = some '\r'
  · rw [if_pos hcr] at h
    exact (List.dropLast_sublist a).mem h
  · rwa [if_neg hcr] at h

/-- Membership of the optional last element. -/
theorem mem_of_getLast?_eq_some {α : Type} {l : List α} {x : α}
    (h : l.getLast? = some x) : x ∈ l := by
  obtain ⟨hne, heq⟩ := List.mem_getLast?_eq_getLast (Option.mem_def.mpr h)
  rw [heq]
  exact List.getLast_mem hne

/-- Lines of the empty text. -/
theorem lines_nil : lines ([] : List Char) = [] := rfl

/-- A leading newline contributes one empty line. -/
theorem lines_newline_cons (t : List Char) :
    lines ('\n' :: t) = [] :: lines t := by
  unfold lines
  rw [splitInclusiveNL_cons, if_pos rfl]
  rfl

/-- Lines of a newline-free segment (not ending in a carriage return)
followed by a newline. -/
theorem lines_append_newline (a t : List Char) (ha : '\n' ∉ a)
    (hr : a.getLast? ≠ some '\r') :
    lines (a ++ '\n' :: t) = a :: lines t := by
  unfold lines
  rw [splitInclusiveNL_append a t ha, List.map_cons,
    stripLineEnding_concat a hr]

/-- Lines of a nonempty newline-free text. -/
theorem lines_no_newline (a : List Char) (ha : '\n' ∉ a) (hne : a ≠ []) :
    lines a = [a] := by
  unfold lines
  rw [splitInclusiveNL_no_newline a ha hne, List.map_singleton,
    stripLineEnding_self]
  intro hlast
  exact ha (mem_of_getLast?_eq_some hlast)

/-- Shape of the segments of the inclusive split: a segment either holds
no newline, or is a newline-free prefix closed by one newline. -/
theorem splitInclusiveNL_member_shape (s : List Char) :
    ∀ seg ∈ splitInclusiveNL s,
      ('\n' ∉ seg) ∨ (∃ pre, seg = pre ++ ['\n'] ∧ '\n' ∉ pre) := by
  induction s with
  | nil => intro seg hseg; simp [splitInclusiveNL] at hseg
  | cons c t ih =>
      intro seg hseg
      rw [splitInclusiveNL_cons] at hseg
      by_cases hc : c = '\n'
      · rw [if_pos hc] at hseg
        rcases List.mem_cons.mp hseg with h1 | h2
        · right
          exact ⟨[], by simp [h1, hc], by simp⟩
        · exact ih seg h2
      · rw [if_neg hc] at hseg
        cases hsplit : splitInclusiveNL t with
        | nil =>
            rw [hsplit] at hseg
            simp at hseg
            left
            rw [hseg]
            intro hmem
            rcases List.mem_cons.mp hmem with hx | hx
            · exact hc hx.symm
            · simp at hx
        | cons s0 ss =>
            rw [hsplit] at hseg
            rcases List.mem_cons.mp hseg with h1 | h2
            · have hs0 := ih s0 (by rw [hsplit]; exact List.mem_cons_self _ _)
              rcases hs0 with hs0l | ⟨pre, hpre, hprenl⟩
              · left
                rw [h1]
                intro hmem
                rcases List.mem_cons.mp hmem with hx | hx
                · exact hc hx.symm
                · exact hs0l hx
              · right
                refine ⟨c :: pre, by rw [h1, hpre]; rfl, ?_⟩
                intro hmem
                rcases List.mem_cons.mp hmem with hx | hx
                · exact hc hx.symm
                · exact hprenl hx
            · exact ih seg (by rw [hsplit]; exact List.mem_cons_of_mem _ h2)

/-- No line produced by `lines` contains a newline. -/
theorem no_newline_mem_lines (s : List Char) :
    ∀ m ∈ lines s, '\n' ∉ m := by
  intro m hm
  unfold lines at hm
  obtain ⟨seg, hseg, hstrip⟩ := List.mem_map.mp hm
  rcases splitInclusiveNL_member_shape s seg hseg with hnl | ⟨pre, hpre, hprenl⟩
  · rw [← hstrip, stripLineEnding_self]
    · exact hnl
    · intro hlast
      exact hnl (mem_of_getLast?_eq_some hlast)
  · rw [← hstrip, hpre]
    intro hmem
    exact hprenl (mem_stripLineEnding_concat pre '\n' hmem)

/-- Interleaving of content lines with the empty separator lines that
re-splitting a blank-line join produces. -/
def interBlank : List (List Char) → List (List Char)
  | [] => []
  | [l] => [l]
  | l :: ls => l :: [] :: interBlank ls

/-- Splitting a blank-line join of nonempty, newline-free lines (not
ending in carriage returns) recovers the lines, interleaved with the
empty separator lines. -/
theorem lines_joinBlank (ls : List (List Char))
    (h : ∀ l ∈ ls, l ≠ [] ∧ '\n' ∉ l ∧ l.getLast? ≠ some '\r') :
    lines (joinBlank ls) = interBlank ls := by
  induction ls with
  | nil => rfl
  | cons l ls ih =>
      cases ls with
      | nil =>
          obtain ⟨hne, hnl, hcr⟩ := h l (List.mem_cons_self _ _)
          show lines (joinBlank [l]) = [l]
          rw [show joinBlank [l] = l from rfl]
          exact lines_no_newline l hnl hne
      | cons l2 ls2 =>
          obtain ⟨hne, hnl, hcr⟩ := h l (List.mem_cons_self _ _)
          rw [show joinBlank (l :: l2 :: ls2)
              = l ++ '\n' :: ('\n' :: joinBlank (l2 :: ls2)) from rfl]
          rw [lines_append_newline l _ hnl hcr, lines_newline_cons]
          rw [ih (fun x hx => h x (List.mem_cons_of_mem _ hx))]
          rfl

/-- Trimming and filtering the interleaved lines recovers the original
trimmed nonempty lines. -/
theorem trimFilter_interBlank (ls : List (List Char))
    (h : ∀ l ∈ ls, trim l = l ∧ l ≠ []) :
    ((interBlank ls).map trim).filter (fun l => decide (l ≠ [])) = ls := by
  induction ls with
  | nil => rfl
  | cons l ls ih =>
      obtain ⟨htr, hne⟩ := h l (List.mem_cons_self _ _)
      cases ls with
      | nil =>
          show ([trim l]).filter (fun l => decide (l ≠ [])) = [l]
          rw [htr, List.filter_cons, decide_eq_true hne]
          rfl
      | cons l2 ls2 =>
          show ((l :: [] :: interBlank (l2 :: ls2)).map trim).filter
              (fun l => decide (l ≠ [])) = l :: l2 :: ls2
          rw [List.map_cons, List.map_cons, htr,
            show trim ([] : List Char) = [] from rfl,
            List.filter_cons, decide_eq_true hne, List.filter_cons]
          rw [show (decide (([] : List Char) ≠ [])) = false from rfl]
          rw [ih (fun x hx => h x (List.mem_cons_of_mem _ hx))]
          simp

/-- Every line kept by the line-normalization stage is trimmed, nonempty,
newline-free and does not end in a carriage return. -/
theorem lineStage_member_props (s : List Char) :
    ∀ l ∈ ((lines s).map trim).filter (fun l => decide (l ≠ [])),
      trim l = l ∧ l ≠ [] ∧ '\n' ∉ l ∧ l.getLast? ≠ some '\r' := by
  intro l hl
  have hmem := List.mem_filter.mp hl
  have hne : l ≠ [] := of_decide_eq_true hmem.2
  obtain ⟨m, hm, htrim⟩ := List.mem_map.mp hmem.1
  have htr : trim l = l := by rw [← htrim, trim_idem]
  have hnl : '\n' ∉ l := by
    intro hx
    exact no_newline_mem_lines s m hm
      (mem_of_mem_trim m '\n' (htrim ▸ hx))
  refine ⟨htr, hne, hnl, ?_⟩
  intro hlast
  cases hrev : l.reverse with
  | nil =>
      have : l = [] := by
        have := congrArg List.reverse hrev
        simpa using this
      exact hne this
  | cons c t =>
      have hc : c = '\r' := by
        have h1 : l.getLast? = some c := by
          rw [← List.head?_reverse, hrev]
          rfl
        rw [h1] at hlast
        exact Option.some_inj.mp hlast
      have hrev2 : (trim l).reverse = c :: t := by rw [htr, hrev]
      have hws := trim_reverse_head l c t hrev2
      rw [hc] at hws
      simp [isWS] at hws

/-- The line-normalization stage is idempotent. -/
theorem lineStage_idem (s : List Char) :
    lineStage (lineStage s) = lineStage s := by
  have hprops := lineStage_member_props s
  unfold lineStage
  rw [lines_joinBlank _ (fun l hl => ⟨(hprops l hl).2.1, (hprops l hl).2.2.1,
      (hprops l hl).2.2.2⟩)]
  rw [trimFilter_interBlank _ (fun l hl => ⟨(hprops l hl).1, (hprops l hl).2.1⟩)]

/-! ### Claim C7 -/

/-- C7 counterexample: the cleanup transform is not idempotent.  On
`"[1[2]]"` the citation scanner removes only `"[2]"` (no citation marker
starts at the first bracket), leaving `"[1]"`; a second application
strips the newly exposed marker `"[1]"`, so the results of one and two
applications differ. -/
theorem C7_counterexample :
    cleanText (cleanText ("[1[2]]").data) ≠ cleanText ("[1[2]]").data := by
  decide

/-- C7 amended: the cleanup transform is idempotent on every input whose
cleaned form contains no remaining bracketed numeric citation marker
(equivalently, on which a second citation-stripping pass is the
identity); citation stripping can expose a new marker — see the
counterexample — and only then does a second application differ.  The
line-normalization stage is idempotent unconditionally
(`lineStage_idem`). -/
theorem C7_amended (x : List Char)
    (h : stripCitations (cleanText x) = cleanText x) :
    cleanText (cleanText x) = cleanText x := by
  show lineStage (stripCitations (cleanText x)) = cleanText x
  rw [h]
  show lineStage (lineStage (stripCitations x)) = lineStage (stripCitations x)
  exact lineStage_idem (stripCitations x)

/-- Witness for C7 at a concrete text with whitespace and a line
break. -/
theorem C7_witness :
    stripCitations (cleanText ("  a \n b ").data) = cleanText ("  a \n b ").data
    ∧ cleanText (cleanText ("  a \n b ").data) = cleanText ("  a \n b ").data :=
  ⟨by decide, C7_amended (("  a \n b ").data) (by decide)⟩

/-- C1: for every preference mapping, recent-topics list and
interaction-count source, the selector weighs a topic as: base score
equal to the preference score when present and `0.3` otherwise, then the
recency penalty, then `+0.2` when the topic has fewer than `3` recorded
interactions, then a `0.05` floor — so every registered topic's final
weight is at least `0.05`. -/
theorem C1_weight_pipeline (prefs : Topic → Option ℚ) (recents : List Topic)
    (icount : Topic → Except DbErr Int) (t : Topic) (n : Int)
    (h : icount t = Except.ok n) :
    topicScore prefs recents icount t
        = max (applyRecency recents t ((prefs t).getD (3/10))
               + (if n < 3 then 2/10 else 0)) (5/100)
      ∧ 5/100 ≤ topicScore prefs recents icount t
      ∧ t ∈ Topic.all := by
  refine ⟨?_, ?_, Topic.mem_all t⟩
  · unfold topicScore
    rw [h]
    by_cases hn : n < 3
    · simp [hn]
    · simp [hn]
  · unfold topicScore
    exact le_max_right _ _

/-- Witness for C1 at a concrete state: no preferences, no recent
topics, zero interactions. -/
theorem C1_witness :
    ((fun _ : Topic => (Except.ok (0 : Int) : Except DbErr Int)) Topic.Viking
        = Except.ok (0 : Int))
    ∧ (topicScore (fun _ => none) []
          (fun _ => (Except.ok (0 : Int) : Except DbErr Int)) Topic.Viking
          = max (applyRecency [] Topic.Viking
                  (((fun _ : Topic => (none : Option ℚ)) Topic.Viking).getD (3/10))
                 + (if (0 : Int) < 3 then 2/10 else 0)) (5/100)
        ∧ 5/100 ≤ topicScore (fun _ => none) []
            (fun _ => (Except.ok (0 : Int) : Except DbErr Int)) Topic.Viking
        ∧ Topic.Viking ∈ Topic.all) :=
  ⟨rfl, C1_weight_pipeline (fun _ => none) []
      (fun _ => (Except.ok (0 : Int) : Except DbErr Int)) Topic.Viking 0 rfl⟩

/-! ### Claim C2 -/

/-- C2 counterexample: when a topic occupies both position `0` and
position `1` of the recent list, the penalty loop multiplies by both
factors, `0.1 * 0.3 = 0.03`, which is none of the single position
factors `0.1, 0.3, 0.6, 0.8, 0.9, 1.0` — in particular not the
most-recent-position factor `0.1` the claim prescribes. -/
theorem C2_counterexample :
    applyRecency [Topic.Medieval, Topic.Medieval] Topic.Medieval 1 = 3/100
    ∧ recencyFactor 0 = 1/10
    ∧ (3/100 : ℚ) ≠ 1/10 ∧ (3/100 : ℚ) ≠ 3/10 ∧ (3/100 : ℚ) ≠ 6/10
    ∧ (3/100 : ℚ) ≠ 8/10 ∧ (3/100 : ℚ) ≠ 9/10 ∧ (3/100 : ℚ) ≠ 1 := by
  refine ⟨?_, ?_, ?_, ?_, ?_, ?_, ?_, ?_⟩ <;>
    norm_num [applyRecency, recencyFactor, List.enum, List.enumFrom]

/-- C2 amended: the recency penalty multiplies the topic's score by the
factor of every position of the recent list holding that topic
(cumulatively), the factor keyed on the position as listed; when the
topic occurs at a single position the score is multiplied by exactly
that one factor, and in particular `recent_topics = [T]` makes `T`'s
post-penalty score exactly 10% of its pre-penalty score. -/
theorem C2_amended (recents : List Topic) (t : Topic) (s : ℚ) :
    applyRecency recents t s
        = s * ((recents.enum.filter (fun p => decide (p.2 = t))).map
            (fun p => recencyFactor p.1)).prod
    ∧ applyRecency [t] t s = s * (1/10) := by
  constructor
  · exact foldl_if_mul (fun p : Nat × Topic => p.2 = t) _ recents.enum s
  · simp [applyRecency, List.enum, List.enumFrom, recencyFactor]

/-! ### Claim C4 helper lemmas -/

/-- Sum of a consed weight list. -/
theorem sumW_cons (t : Topic) (w : ℚ) (rest : List (Topic × ℚ)) :
    sumW ((t, w) :: rest) = w + sumW rest := by
  simp [sumW]

/-- Nonnegative total weight of a positively weighted list. -/
theorem sumW_nonneg (l : List (Topic × ℚ)) (h : ∀ p ∈ l, 0 < p.2) :
    0 ≤ sumW l := by
  induction l with
  | nil => simp [sumW]
  | cons p rest ih =>
      obtain ⟨t, w⟩ := p
      rw [sumW_cons]
      have h1 : 0 < w := h (t, w) (List.mem_cons_self _ _)
      have h2 : 0 ≤ sumW rest := ih (fun q hq => h q (List.mem_cons_of_mem _ hq))
      linarith

/-- Any drawn point below the total weight makes the subtraction loop
stop inside the list: the fallback is unreachable. -/
theorem weightedPick_mem (l : List (Topic × ℚ)) (r : ℚ) (hne : l ≠ [])
    (hr : r < sumW l) :
    ∃ t, weightedPick l r = some t ∧ t ∈ l.map Prod.fst := by
  induction l generalizing r with
  | nil => exact absurd rfl hne
  | cons p rest ih =>
      obtain ⟨t, w⟩ := p
      by_cases hc : r - w ≤ 0
      · exact ⟨t, by simp [weightedPick, hc], by simp⟩
      · have hw : 0 < r - w := by linarith [not_le.mp hc]
        rw [sumW_cons] at hr
        cases rest with
        | nil =>
            exfalso
            have : sumW ([] : List (Topic × ℚ)) = 0 := by simp [sumW]
            rw [this] at hr
            linarith
        | cons q qs =>
            obtain ⟨t', h1, h2⟩ := ih (r - w) (by simp) (by linarith)
            refine ⟨t', ?_, List.mem_cons_of_mem _ h2⟩
            rw [show weightedPick ((t, w) :: q :: qs) r
                = if r - w ≤ 0 then some t else weightedPick (q :: qs) (r - w)
              from rfl, if_neg hc, h1]

/-- When every weight is positive, each list position is selected by
some drawn point strictly between `0` and the total weight. -/
theorem weightedPick_cover (l : List (Topic × ℚ)) (hpos : ∀ p ∈ l, 0 < p.2) :
    ∀ (i : Nat) (h : i < l.length), ∃ r : ℚ, 0 < r ∧ r < sumW l ∧
      weightedPick l r = some (l.get ⟨i, h⟩).1 := by
  induction l with
  | nil => intro i h; exact absurd h (by simp)
  | cons p rest ih =>
      obtain ⟨t, w⟩ := p
      have hw : 0 < w := hpos (t, w) (List.mem_cons_self _ _)
      have hrest : ∀ q ∈ rest, 0 < q.2 :=
        fun q hq => hpos q (List.mem_cons_of_mem _ hq)
      intro i h
      cases i with
      | zero =>
          refine ⟨w / 2, by linarith, ?_, ?_⟩
          · rw [sumW_cons]
            have := sumW_nonneg rest hrest
            linarith
          · have : w / 2 - w ≤ 0 := by linarith
            simp [weightedPick, this]
      | succ i =>
          have hi : i < rest.length := by
            simpa using h
          obtain ⟨r', h0, h1, h2⟩ := ih hrest i hi
          refine ⟨w + r', by linarith, ?_, ?_⟩
          · rw [sumW_cons]; linarith
          · have hstep : ¬ (w + r' - w ≤ 0) := by
              intro hx; linarith [show w + r' - w = r' by ring ▸ hx]
            simp only [weightedPick, if_neg hstep]
            have : w + r' - w = r' := by ring
            rw [this, h2]
            rfl

/-! ### Claim C4 -/

/-- C4: for a non-empty weight mapping, the weighted random draw returns
a topic of the mapping for every drawn point in `[0, total_weight)` (the
fallback branch is unreachable), and — with every weight positive, as
the `0.05` floor guarantees for the computed weights — every topic of
the mapping is returned for some drawn point. -/
theorem C4_weighted_selection (scores : List (Topic × ℚ)) (hne : scores ≠ []) :
    (∀ (r : ℚ) (fb : Nat), 0 ≤ r → r < sumW scores →
        weighted_random_selection scores r fb ∈ scores.map Prod.fst)
    ∧ ((∀ p ∈ scores, 0 < p.2) → ∀ t ∈ scores.map Prod.fst,
        ∃ r : ℚ, 0 ≤ r ∧ r < sumW scores ∧
          ∀ fb : Nat, weighted_random_selection scores r fb = t) := by
  constructor
  · intro r fb _ hr
    obtain ⟨t, h1, h2⟩ := weightedPick_mem scores r hne hr
    simpa [weighted_random_selection, h1] using h2
  · intro hpos t ht
    obtain ⟨p, hp, hpt⟩ := List.mem_map.mp ht
    obtain ⟨⟨i, hi⟩, hget⟩ := List.mem_iff_get.mp hp
    obtain ⟨r, h0, h1, h2⟩ := weightedPick_cover scores hpos i hi
    refine ⟨r, le_of_lt h0, h1, fun fb => ?_⟩
    rw [weighted_random_selection, h2, hget, hpt]
    rfl

/-- Witness for C4 at a concrete two-topic mapping holding a floor
weight. -/
theorem C4_witness :
    (weighted_random_selection [(Topic.Viking, 1/20), (Topic.Mongol, 1)] 0 0
        ∈ ([(Topic.Viking, (1:ℚ)/20), (Topic.Mongol, 1)]).map Prod.fst)
    ∧ ∃ r : ℚ, 0 ≤ r ∧ r < sumW [(Topic.Viking, 1/20), (Topic.Mongol, 1)]
        ∧ ∀ fb : Nat, weighted_random_selection
            [(Topic.Viking, 1/20), (Topic.Mongol, 1)] r fb = Topic.Viking := by
  have h := C4_weighted_selection [(Topic.Viking, 1/20), (Topic.Mongol, 1)]
    (by simp)
  constructor
  · exact h.1 0 0 le_rfl (by norm_num [sumW])
  · refine h.2 ?_ Topic.Viking (by simp)
    intro p hp
    rcases List.mem_cons.mp hp with hp1 | hp2
    · rw [hp1]; norm_num
    · rcases List.mem_cons.mp hp2 with hp3 | hp4
      · rw [hp3]; norm_num
      · simp at hp4

/-! ### Claim C8 -/

/-- C8 counterexample: a stored topic tag that does not decode against
the registry is silently skipped by `get_recent_topics` (the read
succeeds with the row dropped), and a failing interaction-count read
inside the scorer is replaced by the default `0` instead of being
propagated — both contradicting the claim that no storage or decode
failure is swallowed inside the selection core. -/
theorem C8_counterexample :
    get_recent_topics [Except.ok ("bogus")] = Except.ok []
    ∧ decodeTopic ("bogus") = none
    ∧ topicScore (fun _ => none) [] (fun _ => Except.error DbErr.storage)
        Topic.Viking
      = topicScore (fun _ => none) [] (fun _ => Except.ok 0) Topic.Viking :=
  ⟨rfl, rfl, rfl⟩

/-- C8 amended: `get_recent_topics` propagates a row-read failure
unchanged, and `row_to_content_unit` turns an undecodable stored topic
tag into a storage-layer error; but inside the selection core an
undecodable tag in the recent-topics read is silently dropped (the read
still succeeds on the decodable rows), and a failing interaction-count
read is replaced by the default count `0` rather than propagated. -/
theorem C8_amended (ss : List String) (e : DbErr)
    (rest : List (Except DbErr String)) (prefs : Topic → Option ℚ)
    (recents : List Topic) (t : Topic) (row : RawRow) :
    (get_recent_topics (ss.map Except.ok)
        = Except.ok (ss.filterMap decodeTopic))
    ∧ (get_recent_topics (ss.map Except.ok ++ Except.error e :: rest)
        = Except.error e)
    ∧ (topicScore prefs recents (fun _ => Except.error e) t
        = topicScore prefs recents (fun _ => Except.ok 0) t)
    ∧ (decodeTopic row.topicStr = none →
        row_to_content_unit row = Except.error DbErr.storage) := by
  refine ⟨?_, ?_, rfl, ?_⟩
  · induction ss with
    | nil => rfl
    | cons s ss ih =>
        rw [List.map_cons, List.filterMap_cons]
        cases hd : decodeTopic s with
        | none => simpa [get_recent_topics, hd] using ih
        | some t' =>
            simp only [get_recent_topics, hd]
            rw [ih]
            rfl
  · induction ss with
    | nil => rfl
    | cons s ss ih =>
        cases hd : decodeTopic s with
        | none => simpa [get_recent_topics, hd] using ih
        | some t' =>
            simp only [List.map_cons, List.cons_append, get_recent_topics, hd,
              List.append_eq]
            rw [ih]
            rfl
  · intro h
    rw [row_to_content_unit, h]

/-- Witness for C8 at a concrete malformed tag. -/
theorem C8_witness :
    get_recent_topics (["\"Viking\"", "bogus"].map Except.ok)
        = Except.ok (["\"Viking\"", "bogus"].filterMap decodeTopic)
    ∧ row_to_content_unit
        ⟨1, "bogus", [], [], [], 0, 0⟩ = Except.error DbErr.storage := by
  have h := C8_amended ["\"Viking\"", "bogus"] DbErr.storage []
    (fun _ => none) [] Topic.Viking ⟨1, "bogus", [], [], [], 0, 0⟩
  exact ⟨h.1, h.2.2.2 rfl⟩

/-! ### Claim C5 -/

/-- Characterization of a uniform index pick from a list: absent exactly
on the empty list, always a member, and every member reachable. -/
theorem pick_mod_char {α : Type} (l : List α) (k : Nat) :
    (l.get? (k % l.length) = none ↔ l = [])
    ∧ (∀ u : α, l.get? (k % l.length) = some u → u ∈ l)
    ∧ (∀ u ∈ l, ∃ j : Nat, l.get? (j % l.length) = some u) := by
  refine ⟨?_, ?_, ?_⟩
  · cases l with
    | nil => simp
    | cons a as =>
        have hlt : k % (a :: as).length < (a :: as).length :=
          Nat.mod_lt _ (by simp)
        constructor
        · intro hn
          have := List.get?_eq_none.mp hn
          omega
        · intro hcontra
          exact absurd hcontra (by simp)
  · intro u hu
    exact List.get?_mem hu
  · intro u hu
    obtain ⟨⟨i, hi⟩, hget⟩ := List.mem_iff_get.mp hu
    refine ⟨i, ?_⟩
    rw [Nat.mod_eq_of_lt hi, List.get?_eq_get hi, hget]

/-- C5: with an empty preference mapping `get_weighted_random_content`
degrades to a uniform pick among all stored content regardless of topic;
otherwise it draws uniformly among the stored content of the topic the
diversity-weighted selector chose, yielding the explicit absent value
`none` (not an error) exactly when that topic has no stored content. -/
theorem C5_weighted_content (db : Db) (r : ℚ) (fb k : Nat) :
    (prefsEmpty db = true →
        get_weighted_random_content db r fb k = get_random_content db k
        ∧ (get_random_content db k = none ↔ db.content = [])
        ∧ (∀ u, get_random_content db k = some u → u ∈ db.content)
        ∧ (∀ u ∈ db.content, ∃ j : Nat, get_random_content db j = some u))
    ∧ (prefsEmpty db = false →
        get_weighted_random_content db r fb k
            = get_random_content_by_topic db
                (select_topic_with_diversity db r fb) k
        ∧ (get_weighted_random_content db r fb k = none
            ↔ contentForTopic db (select_topic_with_diversity db r fb) = [])
        ∧ (∀ u, get_weighted_random_content db r fb k = some u →
            u ∈ db.content
            ∧ u.topic = select_topic_with_diversity db r fb)) := by
  constructor
  · intro hempty
    have hbranch : get_weighted_random_content db r fb k
        = get_random_content db k := by
      rw [get_weighted_random_content, hempty]
      rfl
    have hchar := pick_mod_char db.content k
    refine ⟨hbranch, hchar.1, hchar.2.1, fun u hu => ?_⟩
    obtain ⟨j, hj⟩ := hchar.2.2 u hu
    exact ⟨j, hj⟩
  · intro hfull
    have hbranch : get_weighted_random_content db r fb k
        = get_random_content_by_topic db
            (select_topic_with_diversity db r fb) k := by
      rw [get_weighted_random_content, hfull]
      rfl
    set t := select_topic_with_diversity db r fb with ht
    have hchar := pick_mod_char (contentForTopic db t) k
    refine ⟨hbranch, ?_, ?_⟩
    · rw [hbranch]
      exact hchar.1
    · intro u hu
      rw [hbranch] at hu
      have hmem := hchar.2.1 u hu
      have := List.mem_filter.mp hmem
      exact ⟨this.1, of_decide_eq_true this.2⟩

/-- Witness for C5 at a one-row store with empty history. -/
theorem C5_witness :
    prefsEmpty ⟨[ContentUnit.mk 1 Topic.Medieval [] [] [] 5 0], []⟩ = true
    ∧ get_weighted_random_content
        ⟨[ContentUnit.mk 1 Topic.Medieval [] [] [] 5 0], []⟩ 0 0 0
      = get_random_content
          ⟨[ContentUnit.mk 1 Topic.Medieval [] [] [] 5 0], []⟩ 0
    ∧ (get_random_content
          ⟨[ContentUnit.mk 1 Topic.Medieval [] [] [] 5 0], []⟩ 0 = none
        ↔ (⟨[ContentUnit.mk 1 Topic.Medieval [] [] [] 5 0], []⟩ : Db).content
            = []) := by
  have hempty : prefsEmpty
      ⟨[ContentUnit.mk 1 Topic.Medieval [] [] [] 5 0], []⟩ = true := by
    decide
  have h := (C5_weighted_content
      ⟨[ContentUnit.mk 1 Topic.Medieval [] [] [] 5 0], []⟩ 0 0 0).1 hempty
  exact ⟨hempty, h.1, h.2.1⟩

/-! ### Claim C3 -/

/-- C3: the preference aggregator is defined exactly on the topics with
at least one interaction (an empty history yields the empty mapping) and
maps each to `fully_read / (fully_read + skipped)`, a ratio in
`[0, 1]`. -/
theorem C3_preferences (H : List JoinedInteraction) (t : Topic) :
    ((get_topic_preferences H t).isSome ↔ ∃ i ∈ H, i.topic = t)
    ∧ (∀ q : ℚ, get_topic_preferences H t = some q →
          q = (fullyReadCount H t : ℚ)
                / ((fullyReadCount H t : ℚ) + (skippedCount H t : ℚ))
          ∧ 0 ≤ q ∧ q ≤ 1)
    ∧ get_topic_preferences ([] : List JoinedInteraction) t = none := by
  have hcount : 0 < fullyReadCount H t + skippedCount H t
      ↔ ∃ i ∈ H, i.topic = t := by
    constructor
    · intro hpos
      rcases Nat.lt_or_ge 0 (fullyReadCount H t) with hf | hf
      · obtain ⟨i, hi⟩ := List.exists_mem_of_length_pos hf
        have := List.mem_filter.mp hi
        exact ⟨i, this.1, (of_decide_eq_true this.2).1⟩
      · have hs : 0 < skippedCount H t := by omega
        obtain ⟨i, hi⟩ := List.exists_mem_of_length_pos hs
        have := List.mem_filter.mp hi
        exact ⟨i, this.1, (of_decide_eq_true this.2).1⟩
    · rintro ⟨i, hmem, htop⟩
      cases hk : i.kind with
      | fullyRead =>
          have : i ∈ H.filter
              (fun i => decide (i.topic = t ∧ i.kind = IKind.fullyRead)) :=
            List.mem_filter.mpr ⟨hmem, decide_eq_true ⟨htop, hk⟩⟩
          have : 0 < fullyReadCount H t :=
            List.length_pos.mpr (List.ne_nil_of_mem this)
          omega
      | skipped =>
          have : i ∈ H.filter
              (fun i => decide (i.topic = t ∧ i.kind = IKind.skipped)) :=
            List.mem_filter.mpr ⟨hmem, decide_eq_true ⟨htop, hk⟩⟩
          have : 0 < skippedCount H t :=
            List.length_pos.mpr (List.ne_nil_of_mem this)
          omega
  refine ⟨?_, ?_, rfl⟩
  · rw [← hcount]
    unfold get_topic_preferences
    by_cases hpos : 0 < fullyReadCount H t + skippedCount H t
    · simp [hpos]
    · simp [hpos]
  · intro q hq
    unfold get_topic_preferences at hq
    by_cases hpos : 0 < fullyReadCount H t + skippedCount H t
    · rw [if_pos hpos] at hq
      have hq' := (Option.some_inj.mp hq).symm
      have hden : (0 : ℚ) < (fullyReadCount H t : ℚ) + (skippedCount H t : ℚ) := by
        have : (0 : ℚ) < ((fullyReadCount H t + skippedCount H t : Nat) : ℚ) := by
          exact_mod_cast hpos
        push_cast at this
        linarith
      refine ⟨hq', ?_, ?_⟩
      · rw [hq']
        positivity
      · rw [hq']
        rw [div_le_one hden]
        have : (0 : ℚ) ≤ (skippedCount H t : ℚ) := Nat.cast_nonneg _
        linarith
    · rw [if_neg hpos] at hq
      exact absurd hq (by simp)

/-- Witness for C3 at a one-interaction history. -/
theorem C3_witness :
    ∃ q : ℚ, get_topic_preferences
        [⟨Topic.Viking, IKind.fullyRead⟩] Topic.Viking = some q
      ∧ 0 ≤ q ∧ q ≤ 1 := by
  have h := C3_preferences [⟨Topic.Viking, IKind.fullyRead⟩] Topic.Viking
  have hs : (get_topic_preferences
      [⟨Topic.Viking, IKind.fullyRead⟩] Topic.Viking).isSome :=
    h.1.mpr ⟨⟨Topic.Viking, IKind.fullyRead⟩, by simp, rfl⟩
  obtain ⟨q, hq⟩ := Option.isSome_iff_exists.mp hs
  exact ⟨q, hq, (h.2.1 q hq).2⟩

/-! ### Claim C6 -/

/-- C6 counterexample: `clean_content` never recomputes `word_count`.
Cleaning the body `"a [1] b"` (3 whitespace-delimited tokens, so
`word_count = 3` at construction) removes the citation marker and leaves
the 2-token body `"a  b"`, while `word_count` stays `3`. -/
theorem C6_counterexample :
    ¬ ((ContentUnit.new Topic.Medieval [] ("a [1] b").data [] 0).clean_content.word_count
        = countWords ((ContentUnit.new Topic.Medieval [] ("a [1] b").data []
            0).clean_content.content)) := by
  decide

/-- C6 amended: `word_count` equals the whitespace-delimited token count
of the body at construction, but `clean_content` rewrites the body while
leaving `word_count` untouched (so the equality can break after
cleaning). -/
theorem C6_amended (t : Topic) (title content url : List Char) (now : Int)
    (u : ContentUnit) :
    (ContentUnit.new t title content url now).word_count = countWords content
    ∧ (ContentUnit.new t title content url now).content = content
    ∧ u.clean_content.word_count = u.word_count
    ∧ u.clean_content.content = cleanText u.content :=
  ⟨rfl, rfl, rfl, rfl⟩

/-! ### Claim C9 -/

/-- C9: a `ContentUnit` is suitable exactly when its word count lies
between `30` and `800` inclusive; in particular `30` and `800` words are
suitable while `29` and `801` are not. -/
theorem C9_suitable_length :
    (∀ u : ContentUnit,
        u.is_suitable_length = true ↔ 30 ≤ u.word_count ∧ u.word_count ≤ 800)
    ∧ (ContentUnit.mk 0 Topic.Medieval [] [] [] 30 0).is_suitable_length = true
    ∧ (ContentUnit.mk 0 Topic.Medieval [] [] [] 29 0).is_suitable_length = false
    ∧ (ContentUnit.mk 0 Topic.Medieval [] [] [] 800 0).is_suitable_length = true
    ∧ (ContentUnit.mk 0 Topic.Medieval [] [] [] 801 0).is_suitable_length = false := by
  refine ⟨?_, by decide, by decide, by decide, by decide⟩
  intro u
  simp [ContentUnit.is_suitable_length]

/-! ### Claim C10 -/

/-- C10: `clean_content` modifies only the `content` field; id, topic,
title, source url, word count and creation timestamp are unchanged. -/
theorem C10_clean_content_frame (u : ContentUnit) :
    u.clean_content.id = u.id
    ∧ u.clean_content.topic = u.topic
    ∧ u.clean_content.title = u.title
    ∧ u.clean_content.source_url = u.source_url
    ∧ u.clean_content.word_count = u.word_count
    ∧ u.clean_content.created_at = u.created_at :=
  ⟨rfl, rfl, rfl, rfl, rfl, rfl⟩

end Tellme
